import Mathlib

/-!
Verification of the Retrieval Fusion & Session Pagination Engine.

This file gives a shallow embedding of the core of the repository:
* the fuzzy field matcher (`fuzzy_match`, `find_best_matches`,
  `global_fuzzy_keyword_search` from `backend/ks_search_tool.py`),
* the retrieval fusion engine (`fuse_results` from `backend/agents.py`),
* the session pagination manager (`_is_more_query`, the continuation
  branch and fresh-query branch of `NeuroscienceAssistant.handle_chat`
  from `backend/agents.py`),
and proves the stated properties of the specification against it.

Numeric scores are modelled as rationals (`ℚ`); Python dictionaries of
records are modelled as ordered association lists, matching insertion
order semantics of CPython dicts.
-/

namespace Kagent

/-! ### Python string helpers

`pyLower` models `str.lower()` (ASCII case folding is what the claims
exercise), `pyStrip` models `str.strip()`.  Python truthiness of an
optional string field (`None` and `""` are falsy) is `truthyStr`. -/

def pyLower (s : String) : String := ⟨s.data.map Char.toLower⟩

def pyStrip (s : String) : String :=
  ⟨(s.data.dropWhile Char.isWhitespace).reverse.dropWhile Char.isWhitespace |>.reverse⟩

def truthyStr : Option String → Option String
  | some s => if s = "" then none else some s
  | none => none

/-- Python `a or b` on two optional string values: the first truthy
operand, else the second operand as-is. -/
def pyOrStr (a b : Option String) : Option String :=
  match truthyStr a with
  | some s => some s
  | none => b

/-! ### The difflib `SequenceMatcher` model

`difflib.SequenceMatcher(None, a, b).ratio()` with no junk (the inputs
here are far below the autojunk limit of 200 characters):
`find_longest_match` returns the longest matching block, earliest in `a`
then earliest in `b` on ties; the total matched size is accumulated by
recursing on the pieces left and right of that block, and
`ratio = 2*M/(len a + len b)` (`1` when both are empty). -/

def commonRunLen : List Char → List Char → Nat
  | x :: xs, y :: ys => if x = y then commonRunLen xs ys + 1 else 0
  | _, _ => 0

/-- The longest matching block `(i, j, k)` of two character lists:
maximal `k` with `a[i:i+k] = b[j:j+k]`, ties resolved to the smallest
`i`, then the smallest `j` (the scan order below realises exactly
that). -/
def findLongestMatch (a b : List Char) : Nat × Nat × Nat :=
  (List.range a.length).foldl (fun best i =>
    (List.range b.length).foldl (fun best j =>
      let k := commonRunLen (a.drop i) (b.drop j)
      if best.2.2 < k then (i, j, k) else best) best) (0, 0, 0)

/-- Total size of all matching blocks, with explicit fuel (each
recursive call strictly shrinks `a.length + b.length`, so
`a.length + b.length + 1` fuel is always enough). -/
def matchTotalF : Nat → List Char → List Char → Nat
  | 0, _, _ => 0
  | fuel + 1, a, b =>
    let m := findLongestMatch a b
    if m.2.2 = 0 then 0
    else
      matchTotalF fuel (a.take m.1) (b.take m.2.1) + m.2.2 +
        matchTotalF fuel (a.drop (m.1 + m.2.2)) (b.drop (m.2.1 + m.2.2))

def matchTotal (a b : List Char) : Nat :=
  matchTotalF (a.length + b.length + 1) a b

def seqRatio (a b : List Char) : ℚ :=
  if a.length + b.length = 0 then 1
  else (2 * matchTotal a b : ℚ) / (a.length + b.length)

/-- The similarity ratio computed inside `fuzzy_match` and
`find_best_matches`: `SequenceMatcher(None, q.lower(), t.lower()).ratio()`. -/
def similarity (query target : String) : ℚ :=
  seqRatio (pyLower query).data (pyLower target).data

/-- `fuzzy_match(query, target, threshold)` from `ks_search_tool.py`:
`False` when either string is empty, else ratio ≥ threshold. -/
def fuzzy_match (query target : String) (threshold : ℚ) : Bool :=
  if query = "" ∨ target = "" then false
  else threshold ≤ similarity query target

/-- `find_best_matches(query, candidates, threshold, max_matches)`:
collect the candidates passing `fuzzy_match` with their ratios, sort by
ratio descending (Python `list.sort` is stable, modelled by
`List.mergeSort`), return the first `max_matches` candidates. -/
def find_best_matches (query : String) (candidates : List String)
    (threshold : ℚ) (max_matches : Nat) : List String :=
  let matched := (candidates.filter (fun c => fuzzy_match query c threshold)).map
    (fun c => (c, similarity query c))
  let sorted := matched.mergeSort (fun x y => decide (y.2 ≤ x.2))
  (sorted.take max_matches).map (fun m => m.1)

/-! ### Candidate records and the fusion engine

A candidate record models the Python dict of one search hit: the two
backend-native id fields (`"id"` and `"_id"`), the two native score
fields (`"similarity"` for the vector backend, `"_score"` for the
lexical/KS backend), and the remaining payload fields.  The accumulator
`combined` of `fuse_results` is an ordered association list from
canonical id to the fused record together with its `final_score`,
mirroring CPython dict insertion-order semantics. -/

structure Rec where
  id : Option String := none
  uid : Option String := none
  similarity : Option ℚ := none
  score : Option ℚ := none
  fields : List (String × String) := []
deriving DecidableEq, Repr

/-- A fused entry: canonical id, the record whose payload survived, and
the accumulated `final_score`. -/
abbrev FusedE := String × Rec × ℚ

/-- `d[k] = v` on an ordered association list: replace in place when the
key exists, else append. -/
def setEntry : List (String × α) → String → α → List (String × α)
  | [], k, v => [(k, v)]
  | (k', v') :: rest, k, v =>
    if k' = k then (k, v) :: rest else (k', v') :: setEntry rest k v

/-- In-place update of the value stored at a key (no-op if absent). -/
def modEntry : List (String × α) → String → (α → α) → List (String × α)
  | [], _, _ => []
  | (k', v') :: rest, k, f =>
    if k' = k then (k', f v') :: rest else (k', v') :: modEntry rest k f

/-- `k in d`. -/
def hasKey (m : List (String × α)) (k : String) : Bool := m.any (fun p => p.1 = k)

/-- First value stored at a key. -/
def getEntry : List (String × α) → String → Option α
  | [], _ => none
  | (k', v') :: rest, k => if k' = k then some v' else getEntry rest k

/-- Canonical id of a vector-backend record when it carries a truthy
native id: `res.get("id") or res.get("_id")`, without the positional
fallback. -/
def canonOfVec (r : Rec) : Option String := pyOrStr r.id (truthyStr r.uid)

/-- Canonical id of a lexical-backend record when it carries a truthy
native id: `res.get("_id") or res.get("id")`, without the positional
fallback. -/
def canonOfKs (r : Rec) : Option String := pyOrStr r.uid (truthyStr r.id)

/-- `doc_id = res.get("id") or res.get("_id") or f"vec_{len(combined)}"`. -/
def canonVec (m : List (String × Rec × ℚ)) (r : Rec) : String :=
  match canonOfVec r with
  | some s => s
  | none => "vec_" ++ Nat.repr m.length

/-- `doc_id = res.get("_id") or res.get("id") or f"ks_{len(combined)}"`. -/
def canonKs (m : List (String × Rec × ℚ)) (r : Rec) : String :=
  match canonOfKs r with
  | some s => s
  | none => "ks_" ++ Nat.repr m.length

/-- One vector-backend candidate:
`combined[doc_id] = {**res, "final_score": res.get("similarity", 0) * 0.6}`. -/
def fuseVecStep (m : List (String × Rec × ℚ)) (r : Rec) : List (String × Rec × ℚ) :=
  setEntry m (canonVec m r) (r, r.similarity.getD 0 * 0.6)

/-- One lexical-backend candidate: on id collision only
`final_score += res.get("_score", 0) * 0.4` (the stored record is kept),
otherwise `combined[doc_id] = {**res, "final_score": res.get("_score", 0) * 0.4}`. -/
def fuseKsStep (m : List (String × Rec × ℚ)) (r : Rec) : List (String × Rec × ℚ) :=
  let k := canonKs m r
  if hasKey m k then modEntry m k (fun p => (p.1, p.2 + r.score.getD 0 * 0.4))
  else m ++ [(k, (r, r.score.getD 0 * 0.4))]

/-- The `combined` mapping after both passes of `fuse_results`
(vector candidates first, then lexical candidates). -/
def fuseMap (vec ks : List Rec) : List (String × Rec × ℚ) :=
  ks.foldl fuseKsStep (vec.foldl fuseVecStep [])

/-- `all_sorted = sorted(combined.values(), key=final_score, reverse=True)`;
the canonical id stays paired with each fused record for specification
purposes (Python's stable sort is modelled by `List.mergeSort`). -/
def fuse_results (vec ks : List Rec) : List FusedE :=
  (fuseMap vec ks).mergeSort (fun x y => decide (y.2.2 ≤ x.2.2))

/-- `page_size = 15` in the fusion node. -/
def fuse_page_size : Nat := 15

/-- `final_results = all_sorted[:page_size]`, the first page served by a
fresh query. -/
def fuse_final_results (vec ks : List Rec) : List FusedE :=
  (fuse_results vec ks).take fuse_page_size

/-! ### Multi-keyword fuzzy search (`global_fuzzy_keyword_search`)

The per-keyword retrieval (`search_across_all_fields`, which performs
HTTP calls) is abstracted as a function parameter `searchFn`; the modelled part
is the union/dedup/cap loop.  A record enters the output only when
`r.get("_id") or r.get("id")` is truthy, which is exactly `canonOfKs`. -/

def gfksInner (p : List String × List Rec) (r : Rec) : List String × List Rec :=
  match canonOfKs r with
  | some rid => if rid ∈ p.1 then p else (p.1 ++ [rid], p.2 ++ [r])
  | none => p

def gfksAux (searchFn : String → List Rec) (top_k : Nat) :
    List String → List String × List Rec → List String × List Rec
  | [], acc => acc
  | kw :: rest, acc =>
    if kw = "" then gfksAux searchFn top_k rest acc
    else
      let acc' := (searchFn kw).foldl gfksInner acc
      if top_k ≤ acc'.2.length then acc'
      else gfksAux searchFn top_k rest acc'

def global_fuzzy_keyword_search (searchFn : String → List Rec)
    (keywords : List String) (top_k : Nat) : List Rec :=
  ((gfksAux searchFn top_k keywords ([], [])).2).take top_k

/-! ### Session pagination manager (`NeuroscienceAssistant.handle_chat`)

The language-understanding pipeline (`graph.ainvoke`) and the rendering
LLM (`call_gemini_for_final_synthesis`) are external collaborators,
abstracted as the parameters `pipeline` and `synth`; the session logic
itself is modelled verbatim. -/

def plainMoreSet : List String :=
  ["more", "next", "continue", "more please", "show more", "keep going"]

def digitsToNat (l : List Char) : Nat :=
  l.foldl (fun a c => 10 * a + (c.toNat - 48)) 0

def isWordChar (c : Char) : Bool := c.isAlphanum || c = '_'

/-- The regex `^(?:next|more|show)\s+(\d{1,3})\b` of `_is_more_query`,
including the backtracking behaviour of `\d{1,3}` followed by `\b`:
a match needs 1–3 digits after whitespace, and the character following
the digit run (if any) must be a non-word character — with 4 or more
digits every split fails the boundary. -/
def matchMoreNum (t : String) : Option Nat :=
  let l := t.data
  let pre : Option (List Char) :=
    if l.take 4 = "next".data then some (l.drop 4)
    else if l.take 4 = "more".data then some (l.drop 4)
    else if l.take 4 = "show".data then some (l.drop 4)
    else none
  match pre with
  | none => none
  | some rest =>
    if rest.takeWhile Char.isWhitespace = [] then none
    else
      let rest2 := rest.dropWhile Char.isWhitespace
      let ds := rest2.takeWhile Char.isDigit
      if ds = [] then none
      else if ds.length ≤ 3 then
        match rest2.drop ds.length with
        | [] => some (digitsToNat ds)
        | c :: _ => if isWordChar c then none else some (digitsToNat ds)
      else none

/-- `_is_more_query` from `agents.py`: `None` for the plain continuation
phrases (and for empty input), the parsed count for "more N"-style
requests, else `None`. -/
def _is_more_query (text : String) : Option Nat :=
  let t := pyLower (pyStrip text)
  if t = "" then none
  else if t ∈ plainMoreSet then none
  else matchMoreNum t

/-- The guard of the continuation branch in `handle_chat`:
`more_count is not None or query.strip().lower() in {...}`. -/
def isMoreBranch (query : String) : Bool :=
  (_is_more_query query).isSome || decide (pyLower (pyStrip query) ∈ plainMoreSet)

structure SessionMem where
  all_results : List FusedE
  page : Nat
  page_size : Nat
  effective_query : String
  keywords : List String
  intents : List String
  last_text : String
deriving DecidableEq, Repr

/-- Per-session assistant state: the chat history list and the stored
session memory (if any). -/
abbrev SessState := List String × Option SessionMem

structure PipeOut where
  all_results : List FusedE
  effective_query : String
  keywords : List String
  intents : List String
  final_response : String

abbrev SynthFn := String → List FusedE → List String → Nat → String → String

abbrev PipeFn := String → List String → PipeOut

/-- `page_size = more_count or mem.get("page_size", 15)` (Python `or`:
an explicit count of `0` is falsy and falls back to the stored size). -/
def resolvedPageSize (m : SessionMem) (mc : Option Nat) : Nat :=
  match mc with
  | some n => if n = 0 then m.page_size else n
  | none => m.page_size

/-- `start = (page - 1) * page_size` with `page = mem.get("page", 1) + 1`,
i.e. the pre-increment page count times the resolved page size. -/
def contStart (m : SessionMem) (mc : Option Nat) : Nat :=
  m.page * resolvedPageSize m mc

/-- `batch = all_results[start : start + page_size]`. -/
def contSlice (m : SessionMem) (mc : Option Nat) : List FusedE :=
  (m.all_results.drop (contStart m mc)).take (resolvedPageSize m mc)

/-- Python `s[-n:]`. -/
def strTakeRight (s : String) (n : Nat) : String :=
  ⟨s.data.drop (s.data.length - n)⟩

/-- `chat_history[sid] = chat_history[sid][-20:]` once longer than 20. -/
def truncHistory (h : List String) : List String :=
  if 20 < h.length then h.drop (h.length - 20) else h

def noPriorMsg : String :=
  "There are no earlier results to continue. Ask me for a dataset (e.g., 'human EEG BIDS')."

def endMsg : String :=
  "You’ve reached the end of the results. Try refining the query."

/-- `NeuroscienceAssistant.handle_chat` for one session: continuation
branch (serving stored pages) and fresh-query branch (running the
pipeline and replacing the stored session state). -/
def handle_chat (pipeline : PipeFn) (synth : SynthFn) (st : SessState)
    (query : String) (reset : Bool) : String × SessState :=
  let st := if reset then (([] : List String), (none : Option SessionMem)) else st
  let history := st.1
  let mc := _is_more_query query
  if isMoreBranch query then
    match st.2 with
    | none => (noPriorMsg, st)
    | some m =>
      if m.all_results = [] then (noPriorMsg, st)
      else
        let batch := contSlice m mc
        if batch = [] then (endMsg, st)
        else
          let text := synth m.effective_query batch m.intents (contStart m mc + 1) m.last_text
          let m' : SessionMem := { m with
            page := m.page + 1
            page_size := resolvedPageSize m mc
            last_text := strTakeRight (m.last_text ++ "\n\n" ++ text) 12000 }
          (text, (truncHistory (history ++ ["User: " ++ query, "Assistant: " ++ text]), some m'))
  else
    let out := pipeline query (history.drop (history.length - 10))
    let m' : SessionMem :=
      ⟨out.all_results, 1, 15, out.effective_query, out.keywords, out.intents, out.final_response⟩
    (out.final_response,
      (truncHistory (history ++ ["User: " ++ query, "Assistant: " ++ out.final_response]), some m'))

/-- Native score contributed by the vector backend for a canonical id:
the similarity of the (unique) vector record carrying that id, `0` when
absent or none carries it. -/
def vecScoreOf (vec : List Rec) (k : String) : ℚ :=
  ((vec.find? (fun r => canonOfVec r == some k)).map (fun r => r.similarity.getD 0)).getD 0

/-- Native score contributed by the lexical backend for a canonical id:
sum of the `_score`s of all lexical records carrying that id. -/
def ksScoreOf (ks : List Rec) (k : String) : ℚ :=
  ((ks.filter (fun r => canonOfKs r == some k)).map (fun r => r.score.getD 0)).sum

/-! ### Lemmas about the similarity ratio -/

/-- A vector-backend hit carrying an explicit id and native similarity. -/
def vrec (i : String) (s : ℚ) : Rec := { id := some i, similarity := some s }

/-- A lexical-backend hit carrying an explicit `_id` and native `_score`. -/
def krec (i : String) (s : ℚ) : Rec := { uid := some i, score := some s }

/-- Modelled from the spec's words, for comparison only: "union of
payloads, lexical taking precedence on conflicting keys"
(`{**vectorPayload, **lexicalPayload}`). -/
def specMergePayload (vecFields lexFields : List (String × String)) : List (String × String) :=
  vecFields.map (fun p => (p.1, (getEntry lexFields p.1).getD p.2)) ++
    lexFields.filter (fun p => !hasKey vecFields p.1)

/-- Vector-backend hit with a payload field, for the collision example. -/
def vpay : Rec := { id := some "a", similarity := some 0.9, fields := [("field", "v")] }

/-- Lexical-backend hit with a conflicting and an extra payload field. -/
def kpay : Rec := { uid := some "a", score := some 1, fields := [("field", "k"), ("extra", "x")] }

/-- Rendering stub standing in for the synthesis LLM: it encodes the
`start_number` and the batch's canonical ids, so the served page is
visible in the returned text. -/
def encPage (start : Nat) (batch : List FusedE) : String :=
  Nat.repr start ++ "|" ++ String.intercalate "," (batch.map Prod.fst)

def synthEnc : SynthFn := fun _ batch _ start _ => encPage start batch

/-- 32 vector hits `r0 … r31`, all with native similarity 1. -/
def vec32 : List Rec := (List.range 32).map (fun i => vrec ("r" ++ Nat.repr i) 1)

/-- The pipeline collaborator for the scenario: fusion of `vec32` alone,
first page rendered from `final_results` starting at number 1. -/
def pipe32 : PipeFn := fun _ _ =>
  { all_results := fuse_results vec32 []
    effective_query := "q32"
    keywords := []
    intents := ["data_discovery"]
    final_response := encPage 1 (fuse_final_results vec32 []) }

def c2Step1 : String × SessState :=
  handle_chat pipe32 synthEnc ([], none) "find neuroscience datasets" false

def c2Step2 : String × SessState := handle_chat pipe32 synthEnc c2Step1.2 "more" false

def c2Step3 : String × SessState := handle_chat pipe32 synthEnc c2Step2.2 "more" false

def c2Step4 : String × SessState := handle_chat pipe32 synthEnc c2Step3.2 "more" false

def resp1 : String := encPage 1 (fuse_final_results vec32 [])

def hist1 : List String := ["User: find neuroscience datasets", "Assistant: " ++ resp1]

def mem1 : SessionMem :=
  ⟨fuse_results vec32 [], 1, 15, "q32", [], ["data_discovery"], resp1⟩

def batch2 : List FusedE := contSlice mem1 none

def resp2 : String := encPage 16 batch2

def hist2 : List String := hist1 ++ ["User: more", "Assistant: " ++ resp2]

def mem2 : SessionMem :=
  { mem1 with
      page := 2
      page_size := 15
      last_text := strTakeRight (resp1 ++ "\n\n" ++ resp2) 12000 }

def batch3 : List FusedE := contSlice mem2 none

def resp3 : String := encPage 31 batch3

def hist3 : List String := hist2 ++ ["User: more", "Assistant: " ++ resp3]

def mem3 : SessionMem :=
  { mem2 with
      page := 3
      page_size := 15
      last_text := strTakeRight (mem2.last_text ++ "\n\n" ++ resp3) 12000 }

/-- Exhausted session used for the C7 witness: one stored record, one
page already served. -/
def memX : SessionMem := ⟨[("a", {}, 0)], 1, 15, "q", [], ["data_discovery"], "t"⟩

theorem commonRunLen_le_left : ∀ a b : List Char, commonRunLen a b ≤ a.length
  | [], _ => by simp [commonRunLen]
  | _ :: _, [] => by simp [commonRunLen]
  | x :: xs, y :: ys => by
    by_cases h : x = y
    · simpa [commonRunLen, h] using commonRunLen_le_left xs ys
    · simp [commonRunLen, h]

theorem commonRunLen_le_right : ∀ a b : List Char, commonRunLen a b ≤ b.length
  | [], _ => by simp [commonRunLen]
  | _ :: _, [] => by simp [commonRunLen]
  | x :: xs, y :: ys => by
    by_cases h : x = y
    · simpa [commonRunLen, h] using commonRunLen_le_right xs ys
    · simp [commonRunLen, h]

/-- An invariant preserved by every step of a left fold holds of the
result. -/
theorem foldl_invariant {α β : Type} (P : β → Prop) (f : β → α → β) :
    ∀ (l : List α) (init : β), P init → (∀ b a, P b → P (f b a)) → P (l.foldl f init)
  | [], _, h0, _ => h0
  | a :: l, init, h0, hstep => foldl_invariant P f l (f init a) (hstep init a h0) hstep

/-- The block returned by `findLongestMatch` fits inside both lists. -/
theorem findLongestMatch_fits (a b : List Char) :
    (findLongestMatch a b).2.2 ≤ a.length - (findLongestMatch a b).1 ∧
      (findLongestMatch a b).2.2 ≤ b.length - (findLongestMatch a b).2.1 := by
  unfold findLongestMatch
  refine foldl_invariant
    (fun best : Nat × Nat × Nat => best.2.2 ≤ a.length - best.1 ∧ best.2.2 ≤ b.length - best.2.1)
    _ _ _ ⟨Nat.zero_le _, Nat.zero_le _⟩ ?_
  intro best i hbest
  refine foldl_invariant
    (fun best : Nat × Nat × Nat => best.2.2 ≤ a.length - best.1 ∧ best.2.2 ≤ b.length - best.2.1)
    _ _ _ hbest ?_
  intro best' j hbest'
  by_cases h : best'.2.2 < commonRunLen (a.drop i) (b.drop j)
  · simp only [h, if_true]
    refine ⟨?_, ?_⟩
    · simpa using commonRunLen_le_left (a.drop i) (b.drop j)
    · simpa using commonRunLen_le_right (a.drop i) (b.drop j)
  · simpa [h] using hbest'

theorem matchTotalF_le_min :
    ∀ (f : Nat) (a b : List Char), matchTotalF f a b ≤ min a.length b.length := by
  intro f
  induction f with
  | zero => intro a b; simp [matchTotalF]
  | succ f ih =>
    intro a b
    have hfits := findLongestMatch_fits a b
    rcases hm : findLongestMatch a b with ⟨i, j, k⟩
    rw [hm] at hfits
    simp only at hfits
    by_cases hk : k = 0
    · simp [matchTotalF, hm, hk]
    · have h1 := ih (a.take i) (b.take j)
      have h2 := ih (a.drop (i + k)) (b.drop (j + k))
      simp only [List.length_take, List.length_drop] at h1 h2
      have h1a : matchTotalF f (a.take i) (b.take j) ≤ i :=
        le_trans h1 (le_trans (min_le_left _ _) (min_le_left _ _))
      have h1b : matchTotalF f (a.take i) (b.take j) ≤ j :=
        le_trans h1 (le_trans (min_le_right _ _) (min_le_left _ _))
      have h2a : matchTotalF f (a.drop (i + k)) (b.drop (j + k)) ≤ a.length - (i + k) :=
        le_trans h2 (min_le_left _ _)
      have h2b : matchTotalF f (a.drop (i + k)) (b.drop (j + k)) ≤ b.length - (j + k) :=
        le_trans h2 (min_le_right _ _)
      simp only [matchTotalF, hm, hk, if_false]
      rw [le_min_iff]
      exact ⟨by omega, by omega⟩

theorem matchTotal_le_min (a b : List Char) : matchTotal a b ≤ min a.length b.length :=
  matchTotalF_le_min _ a b

theorem seqRatio_nonneg (a b : List Char) : 0 ≤ seqRatio a b := by
  unfold seqRatio
  split
  · norm_num
  · apply div_nonneg
    · positivity
    · positivity

theorem seqRatio_le_one (a b : List Char) : seqRatio a b ≤ 1 := by
  unfold seqRatio
  split
  · norm_num
  · rename_i h
    have hpos : (0 : ℚ) < (a.length : ℚ) + (b.length : ℚ) := by
      have h' : 0 < a.length + b.length := Nat.pos_of_ne_zero h
      exact_mod_cast h'
    rw [div_le_one hpos]
    have hmin := matchTotal_le_min a b
    have h2 : 2 * matchTotal a b ≤ a.length + b.length := by omega
    exact_mod_cast h2

theorem similarity_nonneg (q t : String) : 0 ≤ similarity q t := seqRatio_nonneg _ _

theorem similarity_le_one (q t : String) : similarity q t ≤ 1 := seqRatio_le_one _ _

/-- Evaluation helper: once the (kernel-computable) matched total and
lengths are known, the ratio is the obvious fraction. -/
theorem similarity_eval (q t : String) (M la lb : ℕ)
    (hM : matchTotal (pyLower q).data (pyLower t).data = M)
    (ha : (pyLower q).data.length = la) (hb : (pyLower t).data.length = lb)
    (h0 : la + lb ≠ 0) :
    similarity q t = (2 * M : ℚ) / (la + lb) := by
  simp [similarity, seqRatio, hM, ha, hb, h0]

theorem pyLower_eq_empty_iff (s : String) : pyLower s = "" ↔ s = "" := by
  cases s with
  | mk l =>
    constructor
    · intro h
      have hd : l.map Char.toLower = [] := congrArg String.data h
      have hl : l = [] := by simpa using hd
      rw [hl]
    · intro h; rw [h]; rfl

/-- `fuzzy_match` depends on its two arguments only through their
lower-cased forms. -/
theorem fuzzy_match_case_insensitive (q₁ q₂ t₁ t₂ : String) (τ : ℚ)
    (hq : pyLower q₁ = pyLower q₂) (ht : pyLower t₁ = pyLower t₂) :
    fuzzy_match q₁ t₁ τ = fuzzy_match q₂ t₂ τ := by
  have hsim : similarity q₁ t₁ = similarity q₂ t₂ := by
    unfold similarity
    rw [hq, ht]
  have hq' : (q₁ = "") ↔ (q₂ = "") := by
    rw [← pyLower_eq_empty_iff q₁, ← pyLower_eq_empty_iff q₂, hq]
  have ht' : (t₁ = "") ↔ (t₂ = "") := by
    rw [← pyLower_eq_empty_iff t₁, ← pyLower_eq_empty_iff t₂, ht]
  unfold fuzzy_match
  rw [hsim]
  by_cases h1 : q₂ = ""
  · simp [h1, hq'.mpr h1]
  · by_cases h2 : t₂ = ""
    · simp [h2, ht'.mpr h2, hq', h1]
    · simp [h1, h2, (not_iff_not.mpr hq').mpr h1, (not_iff_not.mpr ht').mpr h2]

set_option maxRecDepth 8000

theorem sim_hippocampus_self : similarity "hippocampus" "hippocampus" = 1 := by
  rw [similarity_eval "hippocampus" "hippocampus" 11 11 11 (by decide) (by decide) (by decide)
    (by decide)]
  norm_num

theorem sim_hippocampus_upper : similarity "hippocampus" "Hippocampus" = 1 := by
  rw [similarity_eval "hippocampus" "Hippocampus" 11 11 11 (by decide) (by decide) (by decide)
    (by decide)]
  norm_num

theorem sim_hippocampus_typo : similarity "hippocampus" "hipp0campus" = 10 / 11 := by
  rw [similarity_eval "hippocampus" "hipp0campus" 10 11 11 (by decide) (by decide) (by decide)
    (by decide)]
  norm_num

theorem sim_hippocampus_thalamus : similarity "hippocampus" "thalamus" = 10 / 19 := by
  rw [similarity_eval "hippocampus" "thalamus" 5 11 8 (by decide) (by decide) (by decide)
    (by decide)]
  norm_num

theorem sim_ab_bacb : similarity "ab" "bacb" = 2 / 3 := by
  rw [similarity_eval "ab" "bacb" 2 2 4 (by decide) (by decide) (by decide) (by decide)]
  norm_num

theorem sim_bacb_ab : similarity "bacb" "ab" = 1 / 3 := by
  rw [similarity_eval "bacb" "ab" 1 4 2 (by decide) (by decide) (by decide) (by decide)]
  norm_num

/-- **C9**, counterexample: the similarity ratio underlying `fuzzy_match`
is *not* symmetric — `SequenceMatcher` is order-sensitive — so at
threshold `1/2` the match of `"ab"` against `"bacb"` succeeds while the
swapped call fails. -/
theorem fuzzy_match_not_symmetric :
    fuzzy_match "ab" "bacb" (1 / 2) = true ∧ fuzzy_match "bacb" "ab" (1 / 2) = false ∧
      similarity "ab" "bacb" ≠ similarity "bacb" "ab" := by
  refine ⟨?_, ?_, ?_⟩
  · simp [fuzzy_match, sim_ab_bacb]
    norm_num
  · simp [fuzzy_match, sim_bacb_ab]
    norm_num
  · rw [sim_ab_bacb, sim_bacb_ab]
    norm_num

/-- **C9** (amended): the similarity ratio underlying `fuzzy_match` is
case-insensitive (both arguments are lower-cased first) and always lies
in `[0, 1]`; for nonempty strings `fuzzy_match` returns `true` iff the
ratio is at least the threshold, and an empty query or target always
yields `false` (even when the ratio — `1` for two empty strings — would
clear the threshold).  The ratio is *not* symmetric in general. -/
theorem fuzzy_match_ratio_spec :
    (∀ q t : String, 0 ≤ similarity q t ∧ similarity q t ≤ 1) ∧
    (∀ q₁ q₂ t₁ t₂ : String, ∀ τ : ℚ, pyLower q₁ = pyLower q₂ → pyLower t₁ = pyLower t₂ →
      fuzzy_match q₁ t₁ τ = fuzzy_match q₂ t₂ τ) ∧
    (∀ q t : String, ∀ τ : ℚ, q ≠ "" → t ≠ "" →
      (fuzzy_match q t τ = true ↔ τ ≤ similarity q t)) ∧
    (∀ t : String, ∀ τ : ℚ, fuzzy_match "" t τ = false ∧ fuzzy_match t "" τ = false) := by
  refine ⟨?_, ?_, ?_, ?_⟩
  · exact fun q t => ⟨similarity_nonneg q t, similarity_le_one q t⟩
  · exact fun q₁ q₂ t₁ t₂ τ hq ht => fuzzy_match_case_insensitive q₁ q₂ t₁ t₂ τ hq ht
  · intro q t τ hq ht
    simp [fuzzy_match, hq, ht]
  · intro t τ
    constructor <;> simp [fuzzy_match]

theorem fuzzy_match_ratio_spec_witness :
    ("hippocampus" ≠ "" ∧ "thalamus" ≠ "") ∧
    (fuzzy_match "hippocampus" "thalamus" (4 / 5) = true ↔
      (4 / 5 : ℚ) ≤ similarity "hippocampus" "thalamus") :=
  ⟨⟨by decide, by decide⟩,
    fuzzy_match_ratio_spec.2.2.1 "hippocampus" "thalamus" (4 / 5) (by decide) (by decide)⟩

theorem fbm_trans : ∀ a b c : String × ℚ,
    (fun x y : String × ℚ => decide (y.2 ≤ x.2)) a b = true →
    (fun x y : String × ℚ => decide (y.2 ≤ x.2)) b c = true →
    (fun x y : String × ℚ => decide (y.2 ≤ x.2)) a c = true := by
  intro a b c h1 h2
  simp only [decide_eq_true_eq] at h1 h2 ⊢
  exact le_trans h2 h1

theorem fbm_total : ∀ a b : String × ℚ,
    ((fun x y : String × ℚ => decide (y.2 ≤ x.2)) a b ||
      (fun x y : String × ℚ => decide (y.2 ≤ x.2)) b a) = true := by
  intro a b
  simp only [Bool.or_eq_true, decide_eq_true_eq]
  exact le_total b.2 a.2

theorem find_best_matches_example :
    find_best_matches "hippocampus" ["hippocampus", "Hippocampus", "hipp0campus", "thalamus"]
      (0.8 : ℚ) 5 = ["hippocampus", "Hippocampus", "hipp0campus"] := by
  have h1 : fuzzy_match "hippocampus" "hippocampus" (0.8 : ℚ) = true := by
    simp [fuzzy_match, sim_hippocampus_self]
    norm_num
  have h2 : fuzzy_match "hippocampus" "Hippocampus" (0.8 : ℚ) = true := by
    simp [fuzzy_match, sim_hippocampus_upper]
    norm_num
  have h3 : fuzzy_match "hippocampus" "hipp0campus" (0.8 : ℚ) = true := by
    simp [fuzzy_match, sim_hippocampus_typo]
    norm_num
  have h4 : fuzzy_match "hippocampus" "thalamus" (0.8 : ℚ) = false := by
    simp [fuzzy_match, sim_hippocampus_thalamus]
    norm_num
  have hfil : ["hippocampus", "Hippocampus", "hipp0campus", "thalamus"].filter
      (fun c => fuzzy_match "hippocampus" c (0.8 : ℚ)) =
      ["hippocampus", "Hippocampus", "hipp0campus"] := by
    simp [List.filter, h1, h2, h3, h4]
  have hsorted : ([("hippocampus", (1 : ℚ)), ("Hippocampus", 1), ("hipp0campus", 10 / 11)]).mergeSort
      (fun x y => decide (y.2 ≤ x.2)) =
      [("hippocampus", (1 : ℚ)), ("Hippocampus", 1), ("hipp0campus", 10 / 11)] := by
    apply List.mergeSort_of_sorted
    refine List.Pairwise.cons ?_ (List.Pairwise.cons ?_ (List.Pairwise.cons ?_ List.Pairwise.nil))
    · intro p hp
      rcases List.mem_cons.mp hp with rfl | hp
      · simp
      · rcases List.mem_cons.mp hp with rfl | hp
        · simp only [decide_eq_true_eq]
          norm_num
        · simp at hp
    · intro p hp
      rcases List.mem_cons.mp hp with rfl | hp
      · simp only [decide_eq_true_eq]
        norm_num
      · simp at hp
    · intro p hp
      simp at hp
  simp only [find_best_matches]
  rw [hfil]
  simp only [List.map_cons, List.map_nil, sim_hippocampus_self, sim_hippocampus_upper,
    sim_hippocampus_typo]
  rw [hsorted]
  rfl

/-- **C5**: `find_best_matches` returns at most `max_matches` candidates,
each passing the fuzzy threshold, sorted by similarity ratio descending;
the sort is stable, so a pair already in descending ratio order in the
filtered vocabulary keeps its relative order; and on the spec's example
it returns exactly the first three candidates and excludes
`"thalamus"`. -/
theorem find_best_matches_spec (q : String) (cs : List String) (τ : ℚ) (mm : Nat) :
    (find_best_matches q cs τ mm).length ≤ mm ∧
    (∀ c ∈ find_best_matches q cs τ mm, fuzzy_match q c τ = true) ∧
    (find_best_matches q cs τ mm).Pairwise (fun c d => similarity q d ≤ similarity q c) ∧
    (∀ x y : String, similarity q y ≤ similarity q x →
      List.Sublist [(x, similarity q x), (y, similarity q y)]
        ((cs.filter (fun c => fuzzy_match q c τ)).map (fun c => (c, similarity q c))) →
      List.Sublist [(x, similarity q x), (y, similarity q y)]
        (((cs.filter (fun c => fuzzy_match q c τ)).map
          (fun c => (c, similarity q c))).mergeSort (fun x y => decide (y.2 ≤ x.2)))) ∧
    find_best_matches "hippocampus" ["hippocampus", "Hippocampus", "hipp0campus", "thalamus"]
      (0.8 : ℚ) 5 = ["hippocampus", "Hippocampus", "hipp0campus"] := by
  have hshape : ∀ p ∈ (cs.filter (fun c => fuzzy_match q c τ)).map
      (fun c => (c, similarity q c)), p.2 = similarity q p.1 := by
    intro p hp
    obtain ⟨c, _, rfl⟩ := List.mem_map.mp hp
    rfl
  refine ⟨?_, ?_, ?_, ?_, find_best_matches_example⟩
  · simp only [find_best_matches, List.length_map, List.length_take]
    exact min_le_left _ _
  · intro c hc
    simp only [find_best_matches, List.mem_map] at hc
    obtain ⟨p, hp, rfl⟩ := hc
    have hp' := List.mem_of_mem_take hp
    rw [List.mem_mergeSort] at hp'
    obtain ⟨c', hc', rfl⟩ := List.mem_map.mp hp'
    simpa using List.of_mem_filter hc'
  · simp only [find_best_matches]
    rw [List.pairwise_map]
    have hsort := List.sorted_mergeSort fbm_trans fbm_total
      ((cs.filter (fun c => fuzzy_match q c τ)).map (fun c => (c, similarity q c)))
    have htake := hsort.sublist (List.take_sublist mm _)
    refine htake.imp_of_mem ?_
    intro a b ha hb hab
    have ha' := (List.mem_mergeSort).mp (List.mem_of_mem_take ha)
    have hb' := (List.mem_mergeSort).mp (List.mem_of_mem_take hb)
    simp only [decide_eq_true_eq] at hab
    rw [← hshape a ha', ← hshape b hb']
    exact hab
  · intro x y hxy hsub
    exact List.pair_sublist_mergeSort fbm_trans fbm_total (by simpa using hxy) hsub

theorem find_best_matches_spec_witness :
    ("hippocampus" ∈ find_best_matches "hippocampus"
      ["hippocampus", "Hippocampus", "hipp0campus", "thalamus"] (0.8 : ℚ) 5) ∧
    fuzzy_match "hippocampus" "hippocampus" (0.8 : ℚ) = true :=
  ⟨by simp [find_best_matches_example],
    (find_best_matches_spec "hippocampus"
      ["hippocampus", "Hippocampus", "hipp0campus", "thalamus"] (0.8 : ℚ) 5).2.1
      "hippocampus" (by simp [find_best_matches_example])⟩

/-! ### Association-list lemmas for the fusion accumulator -/

theorem setEntry_of_not_has (k : String) (v : α) :
    ∀ m : List (String × α), hasKey m k = false → setEntry m k v = m ++ [(k, v)]
  | [], _ => rfl
  | (k', v') :: rest, h => by
    simp only [hasKey, List.any_cons, Bool.or_eq_false_iff, decide_eq_false_iff_not] at h
    simp only [setEntry, if_neg h.1, List.cons_append]
    rw [setEntry_of_not_has k v rest]
    simp only [hasKey, h.2]

theorem keys_setEntry_of_has (k : String) (v : α) :
    ∀ m : List (String × α), hasKey m k = true →
      (setEntry m k v).map Prod.fst = m.map Prod.fst
  | [], h => by simp [hasKey] at h
  | (k', v') :: rest, h => by
    by_cases hk : k' = k
    · simp [setEntry, hk]
    · simp only [hasKey, List.any_cons, Bool.or_eq_true, decide_eq_true_eq] at h
      rcases h with h | h
      · exact absurd h hk
      · simp only [setEntry, if_neg hk, List.map_cons]
        rw [keys_setEntry_of_has k v rest]
        simp only [hasKey, h]

theorem keys_modEntry (k : String) (f : α → α) :
    ∀ m : List (String × α), (modEntry m k f).map Prod.fst = m.map Prod.fst
  | [] => rfl
  | (k', v') :: rest => by
    by_cases hk : k' = k
    · simp [modEntry, hk]
    · simp [modEntry, hk, keys_modEntry k f rest]

theorem hasKey_eq_false_iff (k : String) (m : List (String × α)) :
    hasKey m k = false ↔ k ∉ m.map Prod.fst := by
  simp only [hasKey, List.any_eq_false, decide_eq_true_eq, List.mem_map]
  constructor
  · rintro h ⟨p, hp, rfl⟩
    exact h p hp rfl
  · intro h p hp hpk
    exact h ⟨p, hp, hpk⟩

theorem getEntry_append (k : String) :
    ∀ m₁ m₂ : List (String × α), getEntry (m₁ ++ m₂) k =
      match getEntry m₁ k with
      | some v => some v
      | none => getEntry m₂ k
  | [], m₂ => rfl
  | (k', v') :: rest, m₂ => by
    by_cases hk : k' = k
    · simp [getEntry, hk]
    · simp [getEntry, hk, getEntry_append k rest m₂]

theorem getEntry_modEntry_self (k : String) (f : α → α) :
    ∀ m : List (String × α), getEntry (modEntry m k f) k = (getEntry m k).map f
  | [] => rfl
  | (k', v') :: rest => by
    by_cases hk : k' = k
    · simp [modEntry, getEntry, hk]
    · simp [modEntry, getEntry, hk, getEntry_modEntry_self k f rest]

theorem getEntry_modEntry_ne (k k' : String) (f : α → α) (h : k ≠ k') :
    ∀ m : List (String × α), getEntry (modEntry m k' f) k = getEntry m k
  | [] => rfl
  | (k'', v'') :: rest => by
    by_cases hk2 : k'' = k'
    · subst hk2
      simp [modEntry, getEntry, Ne.symm h]
    · by_cases hk3 : k'' = k
      · simp [modEntry, getEntry, hk2, hk3, h]
      · simp [modEntry, getEntry, hk2, hk3, getEntry_modEntry_ne k k' f h rest]

theorem hasKey_iff_getEntry (k : String) :
    ∀ m : List (String × α), hasKey m k = true ↔ (getEntry m k).isSome
  | [] => by simp [hasKey, getEntry]
  | (k', v') :: rest => by
    by_cases hk : k' = k
    · simp [hasKey, getEntry, hk]
    · simp only [hasKey, getEntry, List.any_cons, Bool.or_eq_true, decide_eq_true_eq,
        if_neg hk]
      rw [← hasKey_iff_getEntry k rest]
      simp [hasKey, hk]

theorem getEntry_of_mem_nodup (p : String × α) :
    ∀ m : List (String × α), (m.map Prod.fst).Nodup → p ∈ m → getEntry m p.1 = some p.2
  | [], _, hp => by simp at hp
  | (k', v') :: rest, hnd, hp => by
    rcases List.mem_cons.mp hp with rfl | hp
    · simp [getEntry]
    · simp only [List.map_cons, List.nodup_cons] at hnd
      have hk : k' ≠ p.1 := by
        intro h
        exact hnd.1 (h ▸ List.mem_map.mpr ⟨p, hp, rfl⟩)
      simp only [getEntry, if_neg hk]
      exact getEntry_of_mem_nodup p rest hnd.2 hp

/-- The fusion accumulator never holds two entries with the same key. -/
theorem nodup_keys_fuseMap (vec ks : List Rec) :
    ((fuseMap vec ks).map Prod.fst).Nodup := by
  unfold fuseMap
  apply foldl_invariant (fun m : List (String × Rec × ℚ) => (m.map Prod.fst).Nodup)
  · apply foldl_invariant (fun m : List (String × Rec × ℚ) => (m.map Prod.fst).Nodup)
    · simp
    · intro m r hm
      unfold fuseVecStep
      rcases h : hasKey m (canonVec m r) with _ | _
      · rw [setEntry_of_not_has _ _ _ h]
        simp only [List.map_append, List.map_cons, List.map_nil]
        rw [List.nodup_append]
        refine ⟨hm, List.nodup_singleton _, ?_⟩
        intro a ha
        simp only [List.mem_singleton]
        intro hb
        rw [hb] at ha
        exact (hasKey_eq_false_iff _ _).mp h ha
      · rw [List.Nodup]
        rw [← List.Nodup]
        rw [keys_setEntry_of_has _ _ _ h]
        exact hm
  · intro m r hm
    unfold fuseKsStep
    rcases h : hasKey m (canonKs m r) with _ | _
    · simp only [h, Bool.false_eq_true, if_false]
      simp only [List.map_append, List.map_cons, List.map_nil]
      rw [List.nodup_append]
      refine ⟨hm, List.nodup_singleton _, ?_⟩
      intro a ha
      simp only [List.mem_singleton]
      intro hb
      rw [hb] at ha
      exact (hasKey_eq_false_iff _ _).mp h ha
    · simp only [h, if_true]
      rw [keys_modEntry]
      exact hm

/-- **C6**: the fused output contains at most one record per canonical
id — its id column has no duplicates, for all candidate sets. -/
theorem fuse_results_nodup_ids (vec ks : List Rec) :
    ((fuse_results vec ks).map Prod.fst).Nodup := by
  have hperm : List.Perm (fuse_results vec ks) (fuseMap vec ks) :=
    List.mergeSort_perm (fuseMap vec ks) _
  exact ((hperm.map Prod.fst).symm.nodup (nodup_keys_fuseMap vec ks))

/-! ### Characterising the two fusion passes on id-carrying inputs -/

/-- With truthy, mutually fresh ids, the vector pass appends one entry
per record. -/
theorem vecFold_eq : ∀ (vec : List Rec) (m : List (String × Rec × ℚ)),
    (∀ r ∈ vec, (canonOfVec r).isSome) →
    (∀ r ∈ vec, ∀ p ∈ m, canonOfVec r ≠ some p.1) →
    (vec.filterMap canonOfVec).Nodup →
    vec.foldl fuseVecStep m =
      m ++ vec.map (fun r => ((canonOfVec r).getD "", (r, r.similarity.getD 0 * 0.6)))
  | [], m, _, _, _ => by simp
  | r :: rest, m, hv, hfresh, hnd => by
    obtain ⟨s, hs⟩ := Option.isSome_iff_exists.mp (hv r (List.mem_cons_self r rest))
    have hstep : fuseVecStep m r = m ++ [(s, (r, r.similarity.getD 0 * 0.6))] := by
      unfold fuseVecStep canonVec
      rw [hs]
      apply setEntry_of_not_has
      rw [hasKey_eq_false_iff]
      intro hmem
      obtain ⟨p, hp, hps⟩ := List.mem_map.mp hmem
      exact hfresh r (List.mem_cons_self r rest) p hp (by rw [hs, hps])
    have hnd' : (rest.filterMap canonOfVec).Nodup := by
      have : ((r :: rest).filterMap canonOfVec) = s :: rest.filterMap canonOfVec := by
        simp [List.filterMap_cons, hs]
      rw [this] at hnd
      exact hnd.of_cons
    have hs_not_rest : ∀ r' ∈ rest, canonOfVec r' ≠ some s := by
      intro r' hr' hcon
      have : ((r :: rest).filterMap canonOfVec) = s :: rest.filterMap canonOfVec := by
        simp [List.filterMap_cons, hs]
      rw [this] at hnd
      exact (List.nodup_cons.mp hnd).1 (List.mem_filterMap.mpr ⟨r', hr', hcon⟩)
    have hrec := vecFold_eq rest (m ++ [(s, (r, r.similarity.getD 0 * 0.6))])
      (fun r' hr' => hv r' (List.mem_cons_of_mem r hr'))
      (by
        intro r' hr' p hp
        rcases List.mem_append.mp hp with hp | hp
        · exact hfresh r' (List.mem_cons_of_mem r hr') p hp
        · rcases List.mem_singleton.mp hp with rfl
          simpa using hs_not_rest r' hr')
      hnd'
    calc (r :: rest).foldl fuseVecStep m
        = rest.foldl fuseVecStep (fuseVecStep m r) := by rw [List.foldl_cons]
      _ = rest.foldl fuseVecStep (m ++ [(s, (r, r.similarity.getD 0 * 0.6))]) := by rw [hstep]
      _ = m ++ [(s, (r, r.similarity.getD 0 * 0.6))] ++
            rest.map (fun r => ((canonOfVec r).getD "", (r, r.similarity.getD 0 * 0.6))) := hrec
      _ = m ++ (r :: rest).map
            (fun r => ((canonOfVec r).getD "", (r, r.similarity.getD 0 * 0.6))) := by
          simp [hs]

/-- Looking up a key in the list built by the vector pass finds the
first (hence, with distinct ids, the only) record carrying that id. -/
theorem getEntry_vecMap (k : String) :
    ∀ vec : List Rec, (∀ r ∈ vec, (canonOfVec r).isSome) →
    getEntry (vec.map (fun r => ((canonOfVec r).getD "", (r, r.similarity.getD 0 * 0.6)))) k =
      (vec.find? (fun r => canonOfVec r == some k)).map
        (fun r => (r, r.similarity.getD 0 * 0.6))
  | [], _ => rfl
  | r :: rest, hv => by
    obtain ⟨s, hs⟩ := Option.isSome_iff_exists.mp (hv r (List.mem_cons_self r rest))
    by_cases hk : s = k
    · subst hk
      simp [getEntry, List.find?_cons, hs]
    · simp only [List.map_cons, getEntry, hs, Option.getD_some, if_neg hk, List.find?_cons]
      have hbeq : (some s == some k) = false := by
        simp [hk]
      simp only [hbeq]
      exact getEntry_vecMap k rest (fun r' hr' => hv r' (List.mem_cons_of_mem r hr'))

/-- If the key is already stored, the lexical pass only accumulates the
weighted scores of the records carrying that id; the stored record is
untouched. -/
theorem ksFold_getEntry_some : ∀ (ks : List Rec) (m : List (String × Rec × ℚ))
    (k : String) (p : Rec × ℚ), (∀ r ∈ ks, (canonOfKs r).isSome) →
    getEntry m k = some p →
    getEntry (ks.foldl fuseKsStep m) k = some (p.1, p.2 + ksScoreOf ks k * 0.4)
  | [], m, k, p, _, hget => by simpa [ksScoreOf] using hget
  | r :: rest, m, k, p, hk, hget => by
    obtain ⟨s, hs⟩ := Option.isSome_iff_exists.mp (hk r (List.mem_cons_self r rest))
    rw [List.foldl_cons]
    by_cases hsk : s = k
    · subst hsk
      have hhas : hasKey m s = true := by
        rw [hasKey_iff_getEntry, hget]
        rfl
      have hstep : fuseKsStep m r =
          modEntry m s (fun q => (q.1, q.2 + r.score.getD 0 * 0.4)) := by
        unfold fuseKsStep canonKs
        rw [hs]
        simp [hhas]
      rw [hstep]
      have hget' : getEntry (modEntry m s (fun q => (q.1, q.2 + r.score.getD 0 * 0.4))) s =
          some (p.1, p.2 + r.score.getD 0 * 0.4) := by
        rw [getEntry_modEntry_self, hget]
        rfl
      rw [ksFold_getEntry_some rest _ s _
        (fun r' hr' => hk r' (List.mem_cons_of_mem r hr')) hget']
      have hsum : ksScoreOf (r :: rest) s = r.score.getD 0 + ksScoreOf rest s := by
        unfold ksScoreOf
        rw [List.filter_cons]
        simp [hs]
      rw [hsum]
      ring_nf
    · have hstep : getEntry (fuseKsStep m r) k = some p := by
        unfold fuseKsStep canonKs
        rw [hs]
        by_cases hhas : hasKey m s
        · simp only [hhas, if_true]
          rw [getEntry_modEntry_ne k s _ (Ne.symm hsk), hget]
        · simp only [hhas, Bool.false_eq_true, if_false]
          rw [getEntry_append, hget]
      rw [ksFold_getEntry_some rest _ k _
        (fun r' hr' => hk r' (List.mem_cons_of_mem r hr')) hstep]
      have hsum : ksScoreOf (r :: rest) k = ksScoreOf rest k := by
        unfold ksScoreOf
        rw [List.filter_cons]
        simp [hs, hsk]
      rw [hsum]

/-- If the key is absent, the lexical pass creates the entry from the
first record carrying that id and accumulates all their weighted
scores. -/
theorem ksFold_getEntry_none : ∀ (ks : List Rec) (m : List (String × Rec × ℚ))
    (k : String), (∀ r ∈ ks, (canonOfKs r).isSome) →
    getEntry m k = none →
    getEntry (ks.foldl fuseKsStep m) k =
      (ks.find? (fun r => canonOfKs r == some k)).map
        (fun r => (r, ksScoreOf ks k * 0.4))
  | [], m, k, _, hget => by simpa using hget
  | r :: rest, m, k, hk, hget => by
    obtain ⟨s, hs⟩ := Option.isSome_iff_exists.mp (hk r (List.mem_cons_self r rest))
    rw [List.foldl_cons]
    by_cases hsk : s = k
    · subst hsk
      have hhas : hasKey m s = false := by
        rw [← Bool.not_eq_true, hasKey_iff_getEntry, hget]
        simp
      have hstep : fuseKsStep m r = m ++ [(s, (r, r.score.getD 0 * 0.4))] := by
        unfold fuseKsStep canonKs
        rw [hs]
        simp [hhas]
      rw [hstep]
      have hget' : getEntry (m ++ [(s, (r, r.score.getD 0 * 0.4))]) s =
          some (r, r.score.getD 0 * 0.4) := by
        rw [getEntry_append, hget]
        simp [getEntry]
      rw [ksFold_getEntry_some rest _ s _
        (fun r' hr' => hk r' (List.mem_cons_of_mem r hr')) hget']
      have hsum : ksScoreOf (r :: rest) s = r.score.getD 0 + ksScoreOf rest s := by
        unfold ksScoreOf
        rw [List.filter_cons]
        simp [hs]
      have hfind : (r :: rest).find? (fun r => canonOfKs r == some s) = some r := by
        rw [List.find?_cons]
        simp [hs]
      rw [hfind, hsum]
      show some (r, r.score.getD 0 * 0.4 + ksScoreOf rest s * 0.4) =
        some (r, (r.score.getD 0 + ksScoreOf rest s) * 0.4)
      have harith : r.score.getD 0 * 0.4 + ksScoreOf rest s * 0.4 =
          (r.score.getD 0 + ksScoreOf rest s) * 0.4 := by ring
      rw [harith]
    · have hstep : getEntry (fuseKsStep m r) k = none := by
        unfold fuseKsStep canonKs
        rw [hs]
        by_cases hhas : hasKey m s
        · simp only [hhas, if_true]
          rw [getEntry_modEntry_ne k s _ (Ne.symm hsk), hget]
        · simp only [hhas, Bool.false_eq_true, if_false]
          rw [getEntry_append, hget]
          simp [getEntry, hsk]
      rw [ksFold_getEntry_none rest _ k
        (fun r' hr' => hk r' (List.mem_cons_of_mem r hr')) hstep]
      have hsum : ksScoreOf (r :: rest) k = ksScoreOf rest k := by
        unfold ksScoreOf
        rw [List.filter_cons]
        simp [hs, hsk]
      have hfind : (r :: rest).find? (fun r => canonOfKs r == some k) =
          rest.find? (fun r => canonOfKs r == some k) := by
        rw [List.find?_cons]
        have hbeq : (canonOfKs r == some k) = false := by
          simp [hs, hsk]
        simp only [hbeq]
      rw [hfind, hsum]

/-! ### Test fixtures: one-id records of each backend -/

theorem find?_canonOfVec_eq : ∀ (vec : List Rec) (r : Rec) (k : String),
    (vec.filterMap canonOfVec).Nodup → r ∈ vec → canonOfVec r = some k →
    vec.find? (fun r => canonOfVec r == some k) = some r
  | [], r, k, _, hr, _ => by simp at hr
  | r₀ :: rest, r, k, hnd, hr, hk => by
    rw [List.find?_cons]
    rcases hb : (canonOfVec r₀ == some k) with _ | _
    · have hne : r ≠ r₀ := by
        intro h
        subst h
        rw [hk] at hb
        simp at hb
      have hr' : r ∈ rest := by
        rcases List.mem_cons.mp hr with h | h
        · exact absurd h hne
        · exact h
      have hnd' : (rest.filterMap canonOfVec).Nodup := by
        rcases h0 : canonOfVec r₀ with _ | s
        · simpa [List.filterMap_cons, h0] using hnd
        · rw [List.filterMap_cons, h0] at hnd
          exact hnd.of_cons
      simp only [Bool.false_eq_true, if_false]
      exact find?_canonOfVec_eq rest r k hnd' hr' hk
    · simp only [if_true]
      have heq : canonOfVec r₀ = some k := by
        simpa using hb
      rcases List.mem_cons.mp hr with h | h
      · rw [h]
      · exfalso
        rw [List.filterMap_cons, heq] at hnd
        exact (List.nodup_cons.mp hnd).1 (List.mem_filterMap.mpr ⟨r, h, hk⟩)

/-- Core of C1: every fused entry's `final_score` is the weighted sum of
the (unique) vector contribution and the summed lexical contributions
for its canonical id. -/
theorem fuse_score_eq (vec ks : List Rec)
    (hv : ∀ r ∈ vec, (canonOfVec r).isSome)
    (hk : ∀ r ∈ ks, (canonOfKs r).isSome)
    (hnd : (vec.filterMap canonOfVec).Nodup) :
    ∀ p ∈ fuse_results vec ks,
      p.2.2 = vecScoreOf vec p.1 * 0.6 + ksScoreOf ks p.1 * 0.4 := by
  intro p hp
  unfold fuse_results at hp
  rw [List.mem_mergeSort] at hp
  have hget : getEntry (fuseMap vec ks) p.1 = some p.2 :=
    getEntry_of_mem_nodup p _ (nodup_keys_fuseMap vec ks) hp
  have hmv : vec.foldl fuseVecStep [] =
      vec.map (fun r => ((canonOfVec r).getD "", (r, r.similarity.getD 0 * 0.6))) :=
    vecFold_eq vec [] hv (by simp) hnd
  unfold fuseMap at hget
  rcases hEv : getEntry (vec.foldl fuseVecStep []) p.1 with _ | q
  · rw [ksFold_getEntry_none ks _ p.1 hk hEv] at hget
    have hvfind : vec.find? (fun r => canonOfVec r == some p.1) = none := by
      have := hEv
      rw [hmv, getEntry_vecMap p.1 vec hv] at this
      exact Option.map_eq_none.mp this
    rcases hkfind : ks.find? (fun r => canonOfKs r == some p.1) with _ | r₁
    · rw [hkfind] at hget
      simp at hget
    · rw [hkfind] at hget
      simp only [Option.map_some', Option.some.injEq] at hget
      rw [← hget]
      unfold vecScoreOf
      rw [hvfind]
      simp only [Option.map_none', Option.getD_none]
      ring
  · rw [ksFold_getEntry_some ks _ p.1 q hk hEv] at hget
    have hq : (vec.find? (fun r => canonOfVec r == some p.1)).map
        (fun r => (r, r.similarity.getD 0 * 0.6)) = some q := by
      rw [← getEntry_vecMap p.1 vec hv, ← hmv]
      exact hEv
    rcases hvfind : vec.find? (fun r => canonOfVec r == some p.1) with _ | r₀
    · rw [hvfind] at hq
      simp at hq
    · rw [hvfind] at hq
      simp only [Option.map_some', Option.some.injEq] at hq
      rw [← hq] at hget
      simp only [Option.some.injEq] at hget
      rw [← hget]
      unfold vecScoreOf
      rw [hvfind]
      simp only [Option.map_some', Option.getD_some]

theorem fuseMap_ex1 : fuseMap [vrec "a" 0.9] [] = [("a", (vrec "a" 0.9, (0.9 : ℚ) * 0.6))] := by
  have hcv : canonVec [] (vrec "a" 0.9) = "a" := by decide
  unfold fuseMap fuseVecStep
  simp only [List.foldl_cons, List.foldl_nil, hcv]
  simp [vrec, setEntry]

theorem fuseMap_ex2 : fuseMap [] [krec "a" 1] = [("a", (krec "a" 1, (1 : ℚ) * 0.4))] := by
  have hck : canonKs [] (krec "a" 1) = "a" := by decide
  unfold fuseMap fuseKsStep
  simp only [List.foldl_cons, List.foldl_nil, hck]
  simp [krec, hasKey]

theorem fuseMap_ex3 : fuseMap [vrec "a" 0.9] [krec "a" 1] =
    [("a", (vrec "a" 0.9, (0.9 : ℚ) * 0.6 + 1 * 0.4))] := by
  have hm1 : [vrec "a" 0.9].foldl fuseVecStep [] = [("a", (vrec "a" 0.9, (0.9 : ℚ) * 0.6))] := by
    have hcv : canonVec [] (vrec "a" 0.9) = "a" := by decide
    simp only [List.foldl_cons, List.foldl_nil, fuseVecStep, hcv]
    simp [vrec, setEntry]
  unfold fuseMap
  rw [hm1]
  have hck : canonKs [("a", (vrec "a" 0.9, (0.9 : ℚ) * 0.6))] (krec "a" 1) = "a" := by decide
  have hhas : hasKey [("a", (vrec "a" 0.9, (0.9 : ℚ) * 0.6))] "a" = true := by decide
  simp only [List.foldl_cons, List.foldl_nil, fuseKsStep, hck, hhas, if_true]
  simp [krec, modEntry]

/-- **C1**: the fused composite score is the weighted sum over
contributing backends — 0.6 times the vector similarity plus 0.4 times
the summed lexical relevance for the same canonical id, with missing
native scores contributing 0; in particular vector 0.9 ↦ 0.54, lexical
1.0 ↦ 0.4, and the same id from both ↦ 0.94. -/
theorem fuse_composite_score (vec ks : List Rec)
    (hv : ∀ r ∈ vec, (canonOfVec r).isSome)
    (hk : ∀ r ∈ ks, (canonOfKs r).isSome)
    (hnd : (vec.filterMap canonOfVec).Nodup) :
    (∀ p ∈ fuse_results vec ks,
      p.2.2 = vecScoreOf vec p.1 * 0.6 + ksScoreOf ks p.1 * 0.4) ∧
    (fuse_results [vrec "a" 0.9] []).map (fun p => (p.1, p.2.2)) = [("a", (0.54 : ℚ))] ∧
    (fuse_results [] [krec "a" 1]).map (fun p => (p.1, p.2.2)) = [("a", (0.4 : ℚ))] ∧
    (fuse_results [vrec "a" 0.9] [krec "a" 1]).map (fun p => (p.1, p.2.2)) =
      [("a", (0.94 : ℚ))] := by
  refine ⟨fuse_score_eq vec ks hv hk hnd, ?_, ?_, ?_⟩
  · unfold fuse_results
    rw [fuseMap_ex1, List.mergeSort_singleton]
    norm_num
  · unfold fuse_results
    rw [fuseMap_ex2, List.mergeSort_singleton]
    norm_num
  · unfold fuse_results
    rw [fuseMap_ex3, List.mergeSort_singleton]
    norm_num

theorem fuse_composite_score_witness :
    (("a", vrec "a" 0.9, (0.94 : ℚ)) ∈ fuse_results [vrec "a" 0.9] [krec "a" 1]) ∧
    (0.94 : ℚ) = vecScoreOf [vrec "a" 0.9] "a" * 0.6 + ksScoreOf [krec "a" 1] "a" * 0.4 := by
  have hmem : ("a", vrec "a" 0.9, (0.94 : ℚ)) ∈ fuse_results [vrec "a" 0.9] [krec "a" 1] := by
    unfold fuse_results
    rw [fuseMap_ex3, List.mergeSort_singleton]
    norm_num [Prod.ext_iff]
  refine ⟨hmem, ?_⟩
  have := (fuse_composite_score [vrec "a" 0.9] [krec "a" 1]
    (by decide) (by decide) (by decide)).1 ("a", vrec "a" 0.9, (0.94 : ℚ)) hmem
  simpa using this

/-! ### C3: payload handling on id collision -/

theorem fuseMap_pay : fuseMap [vpay] [kpay] =
    [("a", (vpay, (0.9 : ℚ) * 0.6 + 1 * 0.4))] := by
  have hm1 : [vpay].foldl fuseVecStep [] = [("a", (vpay, (0.9 : ℚ) * 0.6))] := by
    have hcv : canonVec [] vpay = "a" := by decide
    simp only [List.foldl_cons, List.foldl_nil, fuseVecStep, hcv]
    simp [vpay, setEntry]
  unfold fuseMap
  rw [hm1]
  have hck : canonKs [("a", (vpay, (0.9 : ℚ) * 0.6))] kpay = "a" := by decide
  have hhas : hasKey [("a", (vpay, (0.9 : ℚ) * 0.6))] "a" = true := by decide
  simp only [List.foldl_cons, List.foldl_nil, fuseKsStep, hck, hhas, if_true]
  simp [kpay, modEntry]

/-- **C3**, counterexample: on an id collision the fused payload is the
vector record's payload unchanged — the lexical backend's fields
(`extra`) are dropped and its conflicting value (`field = "k"`) does not
win, contradicting the claimed lexical-precedence union. -/
theorem fuse_payload_counterexample :
    (fuse_results [vpay] [kpay]).map (fun p => p.2.1.fields) = [[("field", "v")]] ∧
    specMergePayload vpay.fields kpay.fields = [("field", "k"), ("extra", "x")] ∧
    (fuse_results [vpay] [kpay]).map (fun p => p.2.1.fields) ≠
      [specMergePayload vpay.fields kpay.fields] := by
  have hfr : fuse_results [vpay] [kpay] = [("a", (vpay, (0.9 : ℚ) * 0.6 + 1 * 0.4))] := by
    unfold fuse_results
    rw [fuseMap_pay, List.mergeSort_singleton]
  refine ⟨?_, ?_, ?_⟩
  · rw [hfr]
    simp [vpay]
  · decide
  · rw [hfr]
    simp [vpay]
    decide

/-- **C3** (amended): when the lexical and vector backends produce a
record with the same canonical id, the fused record's payload is exactly
the vector backend's record; the lexical record only adds its weighted
score and its payload fields are discarded, not merged. -/
theorem fuse_payload_vector_wins (vec ks : List Rec)
    (hv : ∀ r ∈ vec, (canonOfVec r).isSome)
    (hk : ∀ r ∈ ks, (canonOfKs r).isSome)
    (hnd : (vec.filterMap canonOfVec).Nodup) :
    ∀ p ∈ fuse_results vec ks, ∀ r ∈ vec, canonOfVec r = some p.1 → p.2.1 = r := by
  intro p hp r hr hc
  unfold fuse_results at hp
  rw [List.mem_mergeSort] at hp
  have hget : getEntry (fuseMap vec ks) p.1 = some p.2 :=
    getEntry_of_mem_nodup p _ (nodup_keys_fuseMap vec ks) hp
  have hmv : vec.foldl fuseVecStep [] =
      vec.map (fun r => ((canonOfVec r).getD "", (r, r.similarity.getD 0 * 0.6))) :=
    vecFold_eq vec [] hv (by simp) hnd
  have hEv : getEntry (vec.foldl fuseVecStep []) p.1 =
      some (r, r.similarity.getD 0 * 0.6) := by
    rw [hmv, getEntry_vecMap p.1 vec hv, find?_canonOfVec_eq vec r p.1 hnd hr hc]
    rfl
  unfold fuseMap at hget
  rw [ksFold_getEntry_some ks _ p.1 (r, r.similarity.getD 0 * 0.6) hk hEv] at hget
  simp only [Option.some.injEq] at hget
  rw [← hget]

theorem fuse_payload_vector_wins_witness :
    (("a", vpay, (0.94 : ℚ)) ∈ fuse_results [vpay] [kpay]) ∧ vpay ∈ [vpay] ∧
    canonOfVec vpay = some "a" ∧ ("a", vpay, (0.94 : ℚ)).2.1 = vpay := by
  have hfr : fuse_results [vpay] [kpay] = [("a", (vpay, (0.9 : ℚ) * 0.6 + 1 * 0.4))] := by
    unfold fuse_results
    rw [fuseMap_pay, List.mergeSort_singleton]
  have hmem : ("a", vpay, (0.94 : ℚ)) ∈ fuse_results [vpay] [kpay] := by
    rw [hfr]
    norm_num [Prod.ext_iff]
  refine ⟨hmem, List.mem_singleton.mpr rfl, by decide, ?_⟩
  exact fuse_payload_vector_wins [vpay] [kpay] (by decide) (by decide) (by decide)
    ("a", vpay, (0.94 : ℚ)) hmem vpay (List.mem_singleton.mpr rfl) (by decide)

theorem toDigitsCore_shift : ∀ (f n : Nat) (ds : List Char),
    Nat.toDigitsCore 10 f n ds = Nat.toDigitsCore 10 f n [] ++ ds
  | 0, _, _ => rfl
  | f + 1, n, ds => by
    simp only [Nat.toDigitsCore]
    by_cases h : n / 10 = 0
    · simp [h]
    · simp only [h, if_false]
      rw [toDigitsCore_shift f (n / 10) (Nat.digitChar (n % 10) :: ds),
        toDigitsCore_shift f (n / 10) [Nat.digitChar (n % 10)]]
      simp

theorem digitsToNat_append (xs : List Char) (c : Char) :
    digitsToNat (xs ++ [c]) = 10 * digitsToNat xs + (c.toNat - 48) := by
  unfold digitsToNat
  rw [List.foldl_append]
  rfl

theorem digitChar_val (m : Nat) (h : m < 10) : (Nat.digitChar m).toNat - 48 = m := by
  interval_cases m <;> decide

theorem digitsToNat_toDigitsCore : ∀ (f n : Nat), n < f →
    digitsToNat (Nat.toDigitsCore 10 f n []) = n
  | 0, _, h => by omega
  | f + 1, n, h => by
    simp only [Nat.toDigitsCore]
    by_cases h10 : n / 10 = 0
    · simp only [h10, if_true]
      have hn : n < 10 := by omega
      show digitsToNat [Nat.digitChar (n % 10)] = n
      unfold digitsToNat
      simp [digitChar_val (n % 10) (Nat.mod_lt n (by norm_num))]
      omega
    · simp only [h10, if_false]
      rw [toDigitsCore_shift]
      rw [show Nat.digitChar (n % 10) :: ([] : List Char) = [Nat.digitChar (n % 10)] from rfl]
      rw [digitsToNat_append]
      rw [digitsToNat_toDigitsCore f (n / 10) (by omega)]
      rw [digitChar_val (n % 10) (Nat.mod_lt n (by omega))]
      omega

theorem digitsToNat_repr (n : Nat) : digitsToNat (Nat.repr n).data = n :=
  digitsToNat_toDigitsCore (n + 1) n (Nat.lt_succ_self n)

theorem natRepr_inj {a b : Nat} (h : Nat.repr a = Nat.repr b) : a = b := by
  have hfold := congrArg (fun s => digitsToNat (String.data s)) h
  simpa [digitsToNat_repr] using hfold

theorem prefixRepr_inj (p : String) {a b : Nat}
    (h : p ++ Nat.repr a = p ++ Nat.repr b) : a = b := by
  apply natRepr_inj
  apply String.ext
  have hd := congrArg String.data h
  simp only [String.data_append] at hd
  exact List.append_cancel_left hd

theorem ks_ne_vec (a b : Nat) : "ks_" ++ Nat.repr a ≠ "vec_" ++ Nat.repr b := by
  intro h
  have hd := congrArg String.data h
  simp only [String.data_append] at hd
  have hhead : ("ks_".data ++ (Nat.repr a).data).head? =
      ("vec_".data ++ (Nat.repr b).data).head? := by rw [hd]
  simp at hhead

theorem hasKey_append (m₁ m₂ : List (String × α)) (k : String) :
    hasKey (m₁ ++ m₂) k = (hasKey m₁ k || hasKey m₂ k) := by
  simp [hasKey, List.any_append]

theorem hasKey_singleton (k₀ : String) (v : α) (k : String) :
    hasKey [(k₀, v)] k = decide (k₀ = k) := by
  simp [hasKey]

theorem range_shift_map (p : String) (L n : Nat) :
    (List.range (n + 1)).map (fun i => p ++ Nat.repr (L + i)) =
      (p ++ Nat.repr L) :: (List.range n).map (fun i => p ++ Nat.repr (L + 1 + i)) := by
  rw [List.range_succ_eq_map, List.map_cons, List.map_map]
  refine congrArg₂ List.cons (by rw [Nat.add_zero]) ?_
  symm
  apply List.map_congr_left
  intro a _
  simp only [Function.comp_apply]
  congr 1
  congr 1
  omega

theorem vecFold_fallback : ∀ (vec : List Rec) (m : List (String × Rec × ℚ)),
    (∀ r ∈ vec, canonOfVec r = none) →
    (∀ n, m.length ≤ n → hasKey m ("vec_" ++ Nat.repr n) = false) →
    (vec.foldl fuseVecStep m).map Prod.fst =
      m.map Prod.fst ++
        (List.range vec.length).map (fun i => "vec_" ++ Nat.repr (m.length + i))
  | [], m, _, _ => by simp
  | r :: rest, m, hv, hfresh => by
    have hid : canonVec m r = "vec_" ++ Nat.repr m.length := by
      unfold canonVec
      rw [hv r (List.mem_cons_self r rest)]
    have hstep : fuseVecStep m r =
        m ++ [("vec_" ++ Nat.repr m.length, (r, r.similarity.getD 0 * 0.6))] := by
      unfold fuseVecStep
      rw [hid]
      exact setEntry_of_not_has _ _ m (hfresh m.length le_rfl)
    have hfresh2 : ∀ n,
        (m ++ [("vec_" ++ Nat.repr m.length, (r, r.similarity.getD 0 * 0.6))]).length ≤ n →
        hasKey (m ++ [("vec_" ++ Nat.repr m.length, (r, r.similarity.getD 0 * 0.6))])
          ("vec_" ++ Nat.repr n) = false := by
      intro n hn
      simp only [List.length_append, List.length_cons, List.length_nil] at hn
      have hne : ("vec_" ++ Nat.repr m.length) ≠ ("vec_" ++ Nat.repr n) := by
        intro he
        have := prefixRepr_inj "vec_" he
        omega
      rw [hasKey_append, hfresh n (by omega), hasKey_singleton]
      simp [hne]
    rw [List.foldl_cons, hstep,
      vecFold_fallback rest _ (fun r' hr' => hv r' (List.mem_cons_of_mem r hr')) hfresh2]
    rw [show (r :: rest).length = rest.length + 1 from rfl, range_shift_map]
    simp only [List.map_append, List.map_cons, List.map_nil, List.length_append,
      List.length_cons, List.length_nil, List.append_assoc, List.singleton_append]

theorem ksFold_fallback : ∀ (ks : List Rec) (m : List (String × Rec × ℚ)),
    (∀ r ∈ ks, canonOfKs r = none) →
    (∀ n, m.length ≤ n → hasKey m ("ks_" ++ Nat.repr n) = false) →
    (ks.foldl fuseKsStep m).map Prod.fst =
      m.map Prod.fst ++
        (List.range ks.length).map (fun i => "ks_" ++ Nat.repr (m.length + i))
  | [], m, _, _ => by simp
  | r :: rest, m, hv, hfresh => by
    have hid : canonKs m r = "ks_" ++ Nat.repr m.length := by
      unfold canonKs
      rw [hv r (List.mem_cons_self r rest)]
    have hstep : fuseKsStep m r =
        m ++ [("ks_" ++ Nat.repr m.length, (r, r.score.getD 0 * 0.4))] := by
      unfold fuseKsStep
      simp only [hid, hfresh m.length le_rfl, Bool.false_eq_true, if_false]
    have hfresh2 : ∀ n,
        (m ++ [("ks_" ++ Nat.repr m.length, (r, r.score.getD 0 * 0.4))]).length ≤ n →
        hasKey (m ++ [("ks_" ++ Nat.repr m.length, (r, r.score.getD 0 * 0.4))])
          ("ks_" ++ Nat.repr n) = false := by
      intro n hn
      simp only [List.length_append, List.length_cons, List.length_nil] at hn
      have hne : ("ks_" ++ Nat.repr m.length) ≠ ("ks_" ++ Nat.repr n) := by
        intro he
        have := prefixRepr_inj "ks_" he
        omega
      rw [hasKey_append, hfresh n (by omega), hasKey_singleton]
      simp [hne]
    rw [List.foldl_cons, hstep,
      ksFold_fallback rest _ (fun r' hr' => hv r' (List.mem_cons_of_mem r hr')) hfresh2]
    rw [show (r :: rest).length = rest.length + 1 from rfl, range_shift_map]
    simp only [List.map_append, List.map_cons, List.map_nil, List.length_append,
      List.length_cons, List.length_nil, List.append_assoc, List.singleton_append]

/-- **C4**, counterexample: a lexical record with no id fields, at
ordinal 0 of its own batch, is fused under the synthesized id `"ks_1"`
(the accumulator already holds one vector entry), not `"ks_0"` as the
positional-ordinal claim requires. -/
theorem fuse_fallback_counterexample :
    ("ks_1" ∈ (fuse_results [vrec "a" 0.9] [{ score := some 1 }]).map Prod.fst) ∧
    ("ks_0" ∉ (fuse_results [vrec "a" 0.9] [{ score := some 1 }]).map Prod.fst) := by
  have hkeys : (fuseMap [vrec "a" 0.9] [{ score := some 1 }]).map Prod.fst
      = ["a", "ks_1"] := by decide
  have hperm : List.Perm
      ((fuse_results [vrec "a" 0.9] [{ score := some 1 }]).map Prod.fst) ["a", "ks_1"] := by
    have h := (List.mergeSort_perm (fuseMap [vrec "a" 0.9] [{ score := some 1 }])
      (fun x y => decide (y.2.2 ≤ x.2.2))).map Prod.fst
    rw [hkeys] at h
    exact h
  constructor
  · rw [hperm.mem_iff]
    decide
  · rw [hperm.mem_iff]
    decide

/-- **C4** (amended): a record with no truthy id field is fused under
the synthesized id `"<sourceKind>_<n>"` where `n` is the current size of
the cross-backend accumulator, not the ordinal inside its own batch:
with only id-less records, vector ids are `vec_0 … vec_(nv-1)` but
lexical ids continue at `ks_nv … ks_(nv+nk-1)`. -/
theorem fuse_fallback_ids (vec ks : List Rec)
    (hv : ∀ r ∈ vec, canonOfVec r = none) (hk : ∀ r ∈ ks, canonOfKs r = none) :
    (fuseMap vec ks).map Prod.fst =
      (List.range vec.length).map (fun i => "vec_" ++ Nat.repr i) ++
        (List.range ks.length).map (fun i => "ks_" ++ Nat.repr (vec.length + i)) ∧
    List.Perm ((fuse_results vec ks).map Prod.fst)
      ((List.range vec.length).map (fun i => "vec_" ++ Nat.repr i) ++
        (List.range ks.length).map (fun i => "ks_" ++ Nat.repr (vec.length + i))) := by
  have hmv := vecFold_fallback vec [] hv (by intro n _; rfl)
  have hmv' : (vec.foldl fuseVecStep []).map Prod.fst =
      (List.range vec.length).map (fun i => "vec_" ++ Nat.repr i) := by
    rw [hmv]
    simp
  have hlen : (vec.foldl fuseVecStep []).length = vec.length := by
    have h := congrArg List.length hmv'
    simpa using h
  have hfreshK : ∀ n, (vec.foldl fuseVecStep []).length ≤ n →
      hasKey (vec.foldl fuseVecStep []) ("ks_" ++ Nat.repr n) = false := by
    intro n _
    rw [hasKey_eq_false_iff, hmv']
    intro hmem
    obtain ⟨i, _, hi⟩ := List.mem_map.mp hmem
    exact ks_ne_vec n i hi.symm
  have hkfold := ksFold_fallback ks _ hk hfreshK
  rw [hlen, hmv'] at hkfold
  have hmain : (fuseMap vec ks).map Prod.fst =
      (List.range vec.length).map (fun i => "vec_" ++ Nat.repr i) ++
        (List.range ks.length).map (fun i => "ks_" ++ Nat.repr (vec.length + i)) := hkfold
  refine ⟨hmain, ?_⟩
  have hperm := (List.mergeSort_perm (fuseMap vec ks)
    (fun x y => decide (y.2.2 ≤ x.2.2))).map Prod.fst
  rw [hmain] at hperm
  exact hperm

theorem fuse_fallback_ids_witness :
    (∀ r ∈ [({} : Rec)], canonOfVec r = none) ∧
    (∀ r ∈ [({} : Rec)], canonOfKs r = none) ∧
    (fuseMap [({} : Rec)] [({} : Rec)]).map Prod.fst =
      (List.range (1 : Nat)).map (fun i => "vec_" ++ Nat.repr i) ++
        (List.range (1 : Nat)).map (fun i => "ks_" ++ Nat.repr (1 + i)) :=
  ⟨by decide, by decide,
    (fuse_fallback_ids [{}] [{}] (by decide) (by decide)).1⟩

/-! ### C2 fixtures: a 32-record session -/

theorem rstr_ne_empty (i : Nat) : ("r" ++ Nat.repr i) ≠ "" := by
  intro h
  have hd := congrArg String.data h
  simp [String.data_append] at hd

theorem fuse_results_vec32 : fuse_results vec32 [] =
    (List.range 32).map (fun i => ("r" ++ Nat.repr i, vrec ("r" ++ Nat.repr i) 1,
      (1 : ℚ) * 0.6)) := by
  have hcv : ∀ i : Nat, canonOfVec (vrec ("r" ++ Nat.repr i) 1) = some ("r" ++ Nat.repr i) := by
    intro i
    simp [vrec, canonOfVec, pyOrStr, truthyStr, rstr_ne_empty i]
  have hv : ∀ r ∈ vec32, (canonOfVec r).isSome := by
    intro r hr
    obtain ⟨i, _, rfl⟩ := List.mem_map.mp hr
    rw [hcv i]
    rfl
  have hnd : (vec32.filterMap canonOfVec).Nodup := by
    have hfm : vec32.filterMap canonOfVec = (List.range 32).map (fun i => "r" ++ Nat.repr i) := by
      unfold vec32
      rw [List.filterMap_map]
      rw [show (canonOfVec ∘ fun i => vrec ("r" ++ Nat.repr i) 1) =
        (fun i => some ("r" ++ Nat.repr i)) from funext (fun i => hcv i)]
      exact List.filterMap_eq_map _ ▸ rfl
    rw [hfm]
    apply List.Nodup.map
    · intro a b hab
      exact natRepr_inj (List.append_cancel_left (congrArg String.data hab) |> String.ext)
    · exact List.nodup_range 32
  have hmap : fuseMap vec32 [] =
      vec32.map (fun r => ((canonOfVec r).getD "", (r, r.similarity.getD 0 * 0.6))) := by
    unfold fuseMap
    simp only [List.foldl_nil]
    exact vecFold_eq vec32 [] hv (by simp) hnd
  have hlist : vec32.map (fun r => ((canonOfVec r).getD "", (r, r.similarity.getD 0 * 0.6))) =
      (List.range 32).map (fun i => ("r" ++ Nat.repr i, vrec ("r" ++ Nat.repr i) 1,
        (1 : ℚ) * 0.6)) := by
    unfold vec32
    rw [List.map_map]
    apply List.map_congr_left
    intro i _
    simp only [Function.comp_apply]
    rw [hcv i]
    simp [vrec]
  have hsorted : List.Pairwise
      (fun x y : FusedE => decide (y.2.2 ≤ x.2.2) = true)
      ((List.range 32).map (fun i => ("r" ++ Nat.repr i, vrec ("r" ++ Nat.repr i) 1,
        (1 : ℚ) * 0.6))) := by
    rw [List.pairwise_map]
    have hR : ∀ i j : ℕ, i < j →
        decide ((((1 : ℚ)) * 0.6) ≤ ((1 : ℚ) * 0.6)) = true := by
      intro i j _
      simp
    exact (List.pairwise_lt_range 32).imp (fun h => hR _ _ h)
  unfold fuse_results
  rw [hmap, hlist]
  exact List.mergeSort_of_sorted hsorted

theorem isMore_find : isMoreBranch "find neuroscience datasets" = false := by decide

theorem isMore_more : isMoreBranch "more" = true := by decide

theorem mq_more : _is_more_query "more" = none := by decide

theorem c2Step1_eq : c2Step1 = (resp1, (hist1, some mem1)) := by
  unfold c2Step1
  simp [handle_chat, isMore_find, pipe32, truncHistory, resp1, hist1, mem1]

theorem mem1_ne_nil : ¬(mem1.all_results = []) := by
  show ¬(fuse_results vec32 [] = [])
  rw [fuse_results_vec32]
  simp

theorem batch2_ne_nil : ¬(contSlice mem1 none = []) := by
  unfold contSlice contStart resolvedPageSize mem1
  rw [fuse_results_vec32]
  decide

theorem c2Step2_eq : c2Step2 = (resp2, (hist2, some mem2)) := by
  unfold c2Step2
  rw [c2Step1_eq]
  show handle_chat pipe32 synthEnc (hist1, some mem1) "more" false = _
  simp only [handle_chat, isMore_more, mq_more, if_true, Bool.false_eq_true, if_false]
  rw [if_neg mem1_ne_nil, if_neg batch2_ne_nil]
  simp [synthEnc, truncHistory, hist1, hist2, mem2, resp2, batch2, mem1, resp1,
    contStart, resolvedPageSize]

theorem mem2_ne_nil : ¬(mem2.all_results = []) := by
  show ¬(fuse_results vec32 [] = [])
  rw [fuse_results_vec32]
  simp

theorem batch3_ne_nil : ¬(contSlice mem2 none = []) := by
  unfold contSlice contStart resolvedPageSize mem2 mem1
  rw [fuse_results_vec32]
  decide

theorem c2Step3_eq : c2Step3 = (resp3, (hist3, some mem3)) := by
  unfold c2Step3
  rw [c2Step2_eq]
  show handle_chat pipe32 synthEnc (hist2, some mem2) "more" false = _
  simp only [handle_chat, isMore_more, mq_more, if_true, Bool.false_eq_true, if_false]
  rw [if_neg mem2_ne_nil, if_neg batch3_ne_nil]
  simp [synthEnc, truncHistory, hist1, hist2, hist3, mem3, resp3, batch3, mem2, mem1,
    resp1, resp2, batch2, contStart, resolvedPageSize]

theorem mem3_ne_nil : ¬(mem3.all_results = []) := by
  show ¬(fuse_results vec32 [] = [])
  rw [fuse_results_vec32]
  simp

theorem batch4_nil : contSlice mem3 none = [] := by
  unfold contSlice contStart resolvedPageSize mem3 mem2 mem1
  rw [fuse_results_vec32]
  decide

theorem c2Step4_eq : c2Step4 = (endMsg, (hist3, some mem3)) := by
  unfold c2Step4
  rw [c2Step3_eq]
  show handle_chat pipe32 synthEnc (hist3, some mem3) "more" false = _
  simp only [handle_chat, isMore_more, mq_more, if_true, Bool.false_eq_true, if_false]
  rw [if_neg mem3_ne_nil, if_pos batch4_nil]

theorem resp1_eval :
    resp1 = "1|r0,r1,r2,r3,r4,r5,r6,r7,r8,r9,r10,r11,r12,r13,r14" := by
  unfold resp1 fuse_final_results fuse_page_size
  rw [fuse_results_vec32]
  decide

theorem resp2_eval :
    resp2 = "16|r15,r16,r17,r18,r19,r20,r21,r22,r23,r24,r25,r26,r27,r28,r29" := by
  unfold resp2 batch2 contSlice contStart resolvedPageSize mem1
  rw [fuse_results_vec32]
  decide

theorem resp3_eval : resp3 = "31|r30,r31" := by
  unfold resp3 batch3 contSlice contStart resolvedPageSize mem2 mem1
  rw [fuse_results_vec32]
  decide

/-- **C2**: on a session whose stored fused list has 32 records and
default page size 15, the first query serves records 1–15 and stores
`page = 1`, `page_size = 15`; the first continuation serves records
16–30 (slice start = pre-increment page count × page size), the second
serves 31–32, and a third returns the "no more results" signal leaving
the session state unchanged. -/
theorem handle_chat_pagination_scenario :
    (fuse_results vec32 []).length = 32 ∧
    c2Step1.1 = "1|r0,r1,r2,r3,r4,r5,r6,r7,r8,r9,r10,r11,r12,r13,r14" ∧
    c2Step1.2.2.map SessionMem.page = some 1 ∧
    c2Step1.2.2.map SessionMem.page_size = some 15 ∧
    c2Step1.2.2.map SessionMem.all_results = some (fuse_results vec32 []) ∧
    c2Step2.1 = "16|r15,r16,r17,r18,r19,r20,r21,r22,r23,r24,r25,r26,r27,r28,r29" ∧
    c2Step2.2.2.map SessionMem.page = some 2 ∧
    c2Step3.1 = "31|r30,r31" ∧
    c2Step3.2.2.map SessionMem.page = some 3 ∧
    c2Step4.1 = endMsg ∧
    c2Step4.2 = c2Step3.2 := by
  refine ⟨?_, ?_, ?_, ?_, ?_, ?_, ?_, ?_, ?_, ?_, ?_⟩
  · rw [fuse_results_vec32]
    simp
  · rw [c2Step1_eq]
    exact resp1_eval
  · rw [c2Step1_eq]
    simp [mem1]
  · rw [c2Step1_eq]
    simp [mem1]
  · rw [c2Step1_eq]
    simp [mem1]
  · rw [c2Step2_eq]
    exact resp2_eval
  · rw [c2Step2_eq]
    simp [mem2]
  · rw [c2Step3_eq]
    exact resp3_eval
  · rw [c2Step3_eq]
    simp [mem3]
  · rw [c2Step4_eq]
  · rw [c2Step4_eq, c2Step3_eq]

/-! ### C7 and C8: continuation on exhausted or absent sessions -/

/-- **C7**: a continuation request whose computed page slice is empty
returns the "end of results" signal and leaves the whole session state
— history, cursor page, page size, stored results and rolling rendered
text — untouched, whatever the pipeline and renderer do. -/
theorem handle_chat_exhausted (pipeline : PipeFn) (synth : SynthFn)
    (hist : List String) (m : SessionMem) (q : String)
    (hmore : isMoreBranch q = true)
    (hne : m.all_results ≠ [])
    (hslice : contSlice m (_is_more_query q) = []) :
    handle_chat pipeline synth (hist, some m) q false = (endMsg, (hist, some m)) := by
  unfold handle_chat
  simp only [hmore, if_true, Bool.false_eq_true, if_false]
  rw [if_neg hne, if_pos hslice]

theorem handle_chat_exhausted_witness :
    (isMoreBranch "more" = true ∧ memX.all_results ≠ [] ∧
      contSlice memX (_is_more_query "more") = []) ∧
    handle_chat (fun _ _ => ⟨[], "", [], [], ""⟩) (fun _ _ _ _ _ => "")
      (["h"], some memX) "more" false = (endMsg, (["h"], some memX)) :=
  ⟨⟨by decide, by decide, by decide⟩,
    handle_chat_exhausted (fun _ _ => ⟨[], "", [], [], ""⟩) (fun _ _ _ _ _ => "")
      ["h"] memX "more" (by decide) (by decide) (by decide)⟩

/-- **C8**: a continuation request with no stored session state (or an
empty stored result list) returns the "nothing to continue" signal and
changes nothing; the result does not depend on the pipeline or renderer,
so no retrieval can influence it. -/
theorem handle_chat_no_prior (pipeline : PipeFn) (synth : SynthFn)
    (hist : List String) (mem : Option SessionMem) (q : String)
    (hmore : isMoreBranch q = true)
    (hempty : mem = none ∨ ∃ m, mem = some m ∧ m.all_results = []) :
    handle_chat pipeline synth (hist, mem) q false = (noPriorMsg, (hist, mem)) := by
  rcases hempty with rfl | ⟨m, rfl, hres⟩
  · unfold handle_chat
    simp only [hmore, if_true, Bool.false_eq_true, if_false]
  · unfold handle_chat
    simp only [hmore, if_true, Bool.false_eq_true, if_false]
    rw [if_pos hres]

theorem handle_chat_no_prior_witness :
    (isMoreBranch "next" = true ∧
      ((none : Option SessionMem) = none ∨
        ∃ m, (none : Option SessionMem) = some m ∧ m.all_results = [])) ∧
    handle_chat (fun _ _ => ⟨[], "", [], [], ""⟩) (fun _ _ _ _ _ => "")
      ([], none) "next" false = (noPriorMsg, ([], none)) :=
  ⟨⟨by decide, Or.inl rfl⟩,
    handle_chat_no_prior (fun _ _ => ⟨[], "", [], [], ""⟩) (fun _ _ _ _ _ => "")
      [] none "next" (by decide) (Or.inl rfl)⟩

/-! ### C10: the multi-keyword union keeps only id-carrying records -/

theorem gfksInner_inv (acc : List String × List Rec) (r : Rec)
    (h : ∀ x ∈ acc.2, (canonOfKs x).isSome) :
    ∀ x ∈ (gfksInner acc r).2, (canonOfKs x).isSome := by
  unfold gfksInner
  rcases hc : canonOfKs r with _ | rid
  · exact h
  · by_cases hs : rid ∈ acc.1
    · simp only [hs, if_true]
      exact h
    · simp only [hs, Bool.false_eq_true, if_false]
      intro x hx
      rcases List.mem_append.mp hx with hx | hx
      · exact h x hx
      · rcases List.mem_singleton.mp hx with rfl
        rw [hc]
        rfl

theorem gfksAux_inv (searchFn : String → List Rec) (top_k : Nat) :
    ∀ (kws : List String) (acc : List String × List Rec),
    (∀ x ∈ acc.2, (canonOfKs x).isSome) →
    ∀ x ∈ (gfksAux searchFn top_k kws acc).2, (canonOfKs x).isSome
  | [], _, h => h
  | kw :: rest, acc, h => by
    unfold gfksAux
    by_cases hkw : kw = ""
    · simp only [hkw, if_true]
      exact gfksAux_inv searchFn top_k rest acc h
    · simp only [hkw, Bool.false_eq_true, if_false]
      have hinner : ∀ x ∈ ((searchFn kw).foldl gfksInner acc).2, (canonOfKs x).isSome :=
        foldl_invariant (fun p => ∀ x ∈ p.2, (canonOfKs x).isSome) gfksInner
          (searchFn kw) acc h (fun p r hp => gfksInner_inv p r hp)
      by_cases hlen : top_k ≤ ((searchFn kw).foldl gfksInner acc).2.length
      · simp only [hlen, if_true]
        exact hinner
      · simp only [hlen, if_false]
        exact gfksAux_inv searchFn top_k rest _ hinner

/-- **C10**: every record returned by the multi-keyword fuzzy search
carries a truthy id (`r.get("_id") or r.get("id")` is a nonempty
string); a matched record lacking both id fields never reaches the
output, even when the pool is below its cap. -/
theorem global_fuzzy_keyword_search_ids (searchFn : String → List Rec)
    (kws : List String) (top_k : Nat) :
    (∀ r ∈ global_fuzzy_keyword_search searchFn kws top_k,
      ∃ s, canonOfKs r = some s ∧ s ≠ "") ∧
    (∀ r, canonOfKs r = none → r ∉ global_fuzzy_keyword_search searchFn kws top_k) := by
  have hsome : ∀ r ∈ global_fuzzy_keyword_search searchFn kws top_k,
      (canonOfKs r).isSome := by
    intro r hr
    unfold global_fuzzy_keyword_search at hr
    exact gfksAux_inv searchFn top_k kws ([], []) (by simp) r (List.mem_of_mem_take hr)
  have hne : ∀ r : Rec, ∀ s, canonOfKs r = some s → s ≠ "" := by
    intro r s hc
    unfold canonOfKs pyOrStr at hc
    rcases hu : truthyStr r.uid with _ | u
    · rw [hu] at hc
      unfold truthyStr at hc
      rcases hi : r.id with _ | i
      · rw [hi] at hc
        simp at hc
      · rw [hi] at hc
        by_cases hie : i = ""
        · simp [hie] at hc
        · simp only [hie, if_false, Option.some.injEq] at hc
          subst hc
          exact hie
    · rw [hu] at hc
      simp only [Option.some.injEq] at hc
      subst hc
      unfold truthyStr at hu
      rcases hi : r.uid with _ | u'
      · rw [hi] at hu
        simp at hu
      · rw [hi] at hu
        by_cases hie : u' = ""
        · simp [hie] at hu
        · simp only [hie, if_false, Option.some.injEq] at hu
          subst hu
          exact hie
  constructor
  · intro r hr
    obtain ⟨s, hs⟩ := Option.isSome_iff_exists.mp (hsome r hr)
    exact ⟨s, hs, hne r s hs⟩
  · intro r hnone hr
    have := hsome r hr
    rw [hnone] at this
    simp at this

theorem global_fuzzy_keyword_search_ids_witness :
    (krec "x" 1 ∈ global_fuzzy_keyword_search (fun _ => [krec "x" 1]) ["kw"] 5) ∧
    (∃ s, canonOfKs (krec "x" 1) = some s ∧ s ≠ "") := by
  have hmem : krec "x" 1 ∈ global_fuzzy_keyword_search (fun _ => [krec "x" 1]) ["kw"] 5 := by
    simp [global_fuzzy_keyword_search, gfksAux, gfksInner, canonOfKs, krec, pyOrStr,
      truthyStr]
  exact ⟨hmem,
    (global_fuzzy_keyword_search_ids (fun _ => [krec "x" 1]) ["kw"] 5).1 (krec "x" 1) hmem⟩

end Kagent
